import Mathlib

/-!
Shallow embedding of the passenger-statistics program (`apputil.py`):
`survival_demographics`, `family_groups` and `last_names`, together with
proofs of the specification claims about them.

Records are lists of `Passenger`; pandas `NaN` cells are `Option`;
numeric cells are exact rationals.
-/

namespace Titanic

/-- One row of the input table.  Fields mirror the CSV columns used by the
code: `PassengerId`, `Survived`, `Pclass`, `Name`, `Sex`, `Age`, `SibSp`,
`Parch`, `Fare`.  `Age` is optional (missing ages are `NaN` in the source). -/
structure Passenger where
  passengerId : Nat
  survived : Nat
  pclass : Int
  name : String
  sex : String
  age : Option ℚ
  sibSp : Nat
  parch : Nat
  fare : ℚ
deriving DecidableEq, Repr

/-- The category domain of the normalized `Sex` column
(`sex_categories = ["male", "female"]`). -/
inductive Sex where
  | male : Sex
  | female : Sex
deriving DecidableEq, Repr

/-- The category domain of the derived `age_group` column
(`age_labels = ["Child", "Teen", "Adult", "Senior"]`). -/
inductive AgeBand where
  | child : AgeBand
  | teen : AgeBand
  | adult : AgeBand
  | senior : AgeBand
deriving DecidableEq, Repr

def isWS (c : Char) : Bool := c.isWhitespace

/-- Strip surrounding whitespace, as Python `str.strip()` does. -/
def trimChars (l : List Char) : List Char :=
  ((l.dropWhile isWS).reverse.dropWhile isWS).reverse

/-- The `.str.lower().str.strip()` normalization applied to the `Sex`
column in `survival_demographics`. -/
def normStr (s : String) : String :=
  String.mk (trimChars (s.data.map Char.toLower))

/-- Embeds `pd.Categorical` of the normalized sex over `["male", "female"]`:
values outside the category list become `NaN` (here `none`). -/
def sexOf (s : String) : Option Sex :=
  if normStr s = "male" then some Sex.male
  else if normStr s = "female" then some Sex.female
  else none

/-- Embeds `pd.cut(df["Age"], bins=[0, 12, 19, 59, inf], labels=age_labels)`:
with the default `right=True` the bins are the left-open intervals
`(0,12], (12,19], (19,59], (59,inf)`; a value in no bin gets `NaN`. -/
def ageBand (a : ℚ) : Option AgeBand :=
  if 0 < a ∧ a ≤ 12 then some AgeBand.child
  else if 12 < a ∧ a ≤ 19 then some AgeBand.teen
  else if 19 < a ∧ a ≤ 59 then some AgeBand.adult
  else if 59 < a then some AgeBand.senior
  else none

/-- Embeds `pd.Categorical(df["Pclass"], categories=[1, 2, 3])`: class values
outside the category list become `NaN`. -/
def classOf (c : Int) : Option Int :=
  if c = 1 ∨ c = 2 ∨ c = 3 then some c else none

/-- The grouping key of a record for `groupby(["Pclass", "Sex", "age_group"])`.
A record whose class, normalized sex, or age band is `NaN` has no key and is
dropped by the group-by. -/
def demKey (p : Passenger) : Option (Int × Sex × AgeBand) :=
  match classOf p.pclass, sexOf p.sex, p.age with
  | some c, some s, some a =>
    match ageBand a with
    | some b => some (c, s, b)
    | none => none
  | _, _, _ => none

/-- Floor of a rational (the denominator is positive, so flooring division
of the numerator by the denominator is the mathematical floor). -/
def qfloor (q : ℚ) : Int := Int.fdiv q.num (q.den : Int)

/-- Python `round` to the nearest integer: ties go to the even integer. -/
def roundHalfEven (q : ℚ) : Int :=
  let f := qfloor q
  if q - (f : ℚ) < 1 / 2 then f
  else if (1 : ℚ) / 2 < q - (f : ℚ) then f + 1
  else if f % 2 = 0 then f else f + 1

/-- Python `round(q, 2)`. -/
def round2 (q : ℚ) : ℚ := ((roundHalfEven (q * 100) : ℚ)) / 100

/-- One row of the `survival_demographics` output table. -/
structure DemRow where
  pclass : Int
  sex : Sex
  band : AgeBand
  nPassengers : Nat
  nSurvivors : Nat
  rate : ℚ
deriving DecidableEq, Repr

def allClasses : List Int := [1, 2, 3]

def allSexes : List Sex := [Sex.male, Sex.female]

def allBands : List AgeBand := [AgeBand.child, AgeBand.teen, AgeBand.adult, AgeBand.senior]

/-- Embeds `pd.MultiIndex.from_product([pclass_categories, sex_categories, age_labels])`:
the 24 keys of the full cross-product, class outermost, in category order. -/
def demKeys : List (Int × Sex × AgeBand) :=
  allClasses.flatMap (fun c => allSexes.flatMap (fun s => allBands.map (fun b => (c, s, b))))

/-- The records falling into the group-by cell of key `k`. -/
def demGroup (ps : List Passenger) (k : Int × Sex × AgeBand) : List Passenger :=
  ps.filter (fun p => demKey p = some k)

/-- The aggregated output row for key `k`: `n_passengers` is the group size,
`n_survivors` the sum of `Survived` over the group, and `survival_rate` is
`round(n_survivors / n_passengers, 2)` when the group is non-empty, else `0`. -/
def demRow (ps : List Passenger) (k : Int × Sex × AgeBand) : DemRow :=
  let n := (demGroup ps k).length
  let s := ((demGroup ps k).map Passenger.survived).sum
  { pclass := k.1, sex := k.2.1, band := k.2.2,
    nPassengers := n, nSurvivors := s,
    rate := if 0 < n then round2 ((s : ℚ) / (n : ℚ)) else 0 }

/-- Embeds `survival_demographics`: group by class, sex and age band over the full
cross-product (`observed=False` + `reindex` keep every combination, zero
filled), in cross-product order. -/
def survival_demographics (ps : List Passenger) : List DemRow :=
  demKeys.map (demRow ps)

/-- The key columns of an output row. -/
def rowKey (r : DemRow) : Int × Sex × AgeBand := (r.pclass, r.sex, r.band)

/-- Embeds `df["family_size"] = df["SibSp"] + df["Parch"] + 1`. -/
def familySize (p : Passenger) : Nat := p.sibSp + p.parch + 1

/-- The grouping key for `groupby(["family_size", "Pclass"])`. -/
def famKey (p : Passenger) : Nat × Int := (familySize p, p.pclass)

/-- The order produced by `.sort_values(by=["Pclass", "family_size"])`. -/
def famLE (k1 k2 : Nat × Int) : Prop :=
  k1.2 < k2.2 ∨ (k1.2 = k2.2 ∧ k1.1 ≤ k2.1)

instance : DecidableRel famLE :=
  fun a b => inferInstanceAs (Decidable (a.2 < b.2 ∨ (a.2 = b.2 ∧ a.1 ≤ b.1)))

instance : IsTotal (Nat × Int) famLE := by
  constructor
  intro a b
  unfold famLE
  omega

instance : IsTrans (Nat × Int) famLE := by
  constructor
  intro a b c h1 h2
  unfold famLE at h1 h2 ⊢
  omega

/-- The observed `(family_size, Pclass)` keys, in final output order. -/
def famKeys (ps : List Passenger) : List (Nat × Int) :=
  List.insertionSort famLE ((ps.map famKey).dedup)

/-- One row of the `family_groups` output table. -/
structure FamRow where
  familySize : Nat
  pclass : Int
  nPassengers : Nat
  avgFare : ℚ
  minFare : ℚ
  maxFare : ℚ
deriving DecidableEq, Repr

/-- The records falling into the group-by cell of key `k`. -/
def famGroup (ps : List Passenger) (k : Nat × Int) : List Passenger :=
  ps.filter (fun p => famKey p = k)

/-- The aggregated output row for key `k`: group size, mean, min and max of
`Fare` over the group. -/
def famRow (ps : List Passenger) (k : Nat × Int) : FamRow :=
  let fares := (famGroup ps k).map Passenger.fare
  { familySize := k.1, pclass := k.2,
    nPassengers := fares.length,
    avgFare := fares.sum / (fares.length : ℚ),
    minFare := match fares with | [] => 0 | x :: xs => xs.foldl min x,
    maxFare := match fares with | [] => 0 | x :: xs => xs.foldl max x }

/-- Embeds `family_groups`: group by `(family_size, Pclass)` (only observed keys),
aggregate fare statistics, sort by `(Pclass, family_size)`. -/
def family_groups (ps : List Passenger) : List FamRow :=
  (famKeys ps).map (famRow ps)

/-- Embeds `df["Name"].str.split(",").str[0].str.strip()`: the text preceding the
first comma (the whole string when there is no comma), stripped. -/
def lastName (s : String) : String :=
  String.mk (trimChars (s.data.takeWhile (fun c => c != ',')))

/-- The distinct elements of a list, each kept at its first occurrence, in
first-occurrence order (the insertion order of the counting hash table). -/
def firstOcc : List String → List String
  | [] => []
  | x :: xs => x :: (firstOcc xs).filter (fun y => y != x)

/-- Number of occurrences of `s` in `xs`. -/
def countOcc (s : String) (xs : List String) : Nat :=
  (xs.filter (fun y => y == s)).length

/-- The occurrence counts of `value_counts` before sorting: one entry per
distinct value, keys in first-occurrence order. -/
def countsInOrder (xs : List String) : List (String × Nat) :=
  (firstOcc xs).map (fun s => (s, countOcc s xs))

/-- The descending-count order used by `value_counts(sort=True)`. -/
def countGE (a b : String × Nat) : Prop := b.2 ≤ a.2

instance : DecidableRel countGE :=
  fun a b => inferInstanceAs (Decidable (b.2 ≤ a.2))

instance : IsTotal (String × Nat) countGE := ⟨fun a b => le_total b.2 a.2⟩

instance : IsTrans (String × Nat) countGE := ⟨fun _ _ _ h1 h2 => le_trans h2 h1⟩

/-- Embeds `last_names`: surname per record, occurrence counts, sorted by count
descending (stably, so ties keep first-occurrence order). -/
def last_names (ps : List Passenger) : List (String × Nat) :=
  List.insertionSort countGE (countsInOrder (ps.map (fun p => lastName p.name)))

def sexIdx : Sex → Nat
  | Sex.male => 0
  | Sex.female => 1

def bandIdx : AgeBand → Nat
  | AgeBand.child => 0
  | AgeBand.teen => 1
  | AgeBand.adult => 2
  | AgeBand.senior => 3

/-- Strict lexicographic order on demographic keys: class ascending, then sex
in its category order (`male` before `female`), then age band ascending. -/
def keyLT (k1 k2 : Int × Sex × AgeBand) : Prop :=
  k1.1 < k2.1 ∨ (k1.1 = k2.1 ∧ (sexIdx k1.2.1 < sexIdx k2.2.1 ∨
    (k1.2.1 = k2.2.1 ∧ bandIdx k1.2.2 < bandIdx k2.2.2)))

instance : DecidableRel keyLT :=
  fun a b => inferInstanceAs (Decidable (a.1 < b.1 ∨ (a.1 = b.1 ∧
    (sexIdx a.2.1 < sexIdx b.2.1 ∨ (a.2.1 = b.2.1 ∧ bandIdx a.2.2 < bandIdx b.2.2)))))

/-- A concrete surviving first-class girl, used to instantiate theorems. -/
def pGirl : Passenger :=
  { passengerId := 1, survived := 1, pclass := 1, name := "Smith, Mr. John",
    sex := "female", age := some 5, sibSp := 0, parch := 0, fare := 10 }

/-- A concrete record with an unrecognized sex value. -/
def pBadSex : Passenger :=
  { passengerId := 2, survived := 0, pclass := 2, name := "Doe, Jane",
    sex := " UNKNOWN ", age := some 30, sibSp := 0, parch := 0, fare := 5 }

/-- A concrete record with a missing age. -/
def pNoAge : Passenger :=
  { passengerId := 3, survived := 1, pclass := 3, name := "Brown, Ann",
    sex := "female", age := none, sibSp := 0, parch := 0, fare := 7 }

/-- A concrete record whose age is present but equal to `0`, which falls in
no `pd.cut` bin. -/
def pAgeZero : Passenger :=
  { passengerId := 6, survived := 1, pclass := 1, name := "Gray, Eva",
    sex := "female", age := some 0, sibSp := 0, parch := 0, fare := 12 }

/-- A concrete record with one sibling/spouse and two parents/children. -/
def pFamily : Passenger :=
  { passengerId := 4, survived := 0, pclass := 1, name := "Lee, Kim",
    sex := "male", age := some 40, sibSp := 1, parch := 2, fare := 33 }

/-- A concrete record whose name contains no comma. -/
def pNoComma : Passenger :=
  { passengerId := 5, survived := 0, pclass := 3, name := " Smith ",
    sex := "male", age := some 20, sibSp := 0, parch := 0, fare := 8 }

/- ------------------------------------------------------------------ -/
/- Helper lemmas                                                       -/
/- ------------------------------------------------------------------ -/

theorem rowKey_demRow (ps : List Passenger) (k : Int × Sex × AgeBand) :
    rowKey (demRow ps k) = k := rfl

theorem map_rowKey (ps : List Passenger) :
    (survival_demographics ps).map rowKey = demKeys := by
  have h : rowKey ∘ demRow ps = id := funext (fun k => rfl)
  rw [survival_demographics, List.map_map, h, List.map_id]

theorem demGroup_cons_of_none {p : Passenger} (ps : List Passenger)
    (h : demKey p = none) (k : Int × Sex × AgeBand) :
    demGroup (p :: ps) k = demGroup ps k := by
  simp [demGroup, List.filter_cons, h]

theorem survival_demographics_cons_of_none {p : Passenger} (ps : List Passenger)
    (h : demKey p = none) :
    survival_demographics (p :: ps) = survival_demographics ps := by
  unfold survival_demographics
  apply List.map_congr_left
  intro k _
  rw [demRow, demRow, demGroup_cons_of_none ps h]

/- ------------------------------------------------------------------ -/
/- Claim theorems                                                      -/
/- ------------------------------------------------------------------ -/

/-- C1: for every input record set, `survival_demographics` returns exactly
24 rows, one per key of the cross-product `{1,2,3} × {male,female} ×
{Child,Teen,Adult,Senior}` in that order, and a key matched by no record has
`passenger_count = 0` and `survivor_count = 0`. -/
theorem c1_cross_product (ps : List Passenger) :
    (survival_demographics ps).length = 24 ∧
    (survival_demographics ps).map rowKey = demKeys ∧
    ∀ r ∈ survival_demographics ps,
      (∀ p ∈ ps, demKey p ≠ some (rowKey r)) →
        r.nPassengers = 0 ∧ r.nSurvivors = 0 := by
  refine ⟨?_, map_rowKey ps, ?_⟩
  · rw [survival_demographics, List.length_map]
    rfl
  · intro r hr hnone
    rw [survival_demographics, List.mem_map] at hr
    obtain ⟨k, hk, rfl⟩ := hr
    have hnone' : ∀ p ∈ ps, ¬ demKey p = some k := fun p hp => hnone p hp
    have hg : demGroup ps k = [] := by
      rw [demGroup, List.filter_eq_nil_iff]
      intro p hp
      simpa using hnone' p hp
    constructor <;> simp [demRow, hg]

/-- Witness for C1 at the empty record set: 24 rows, and the first bucket
`(1, male, Child)` is zero-filled. -/
theorem c1_cross_product_witness :
    (survival_demographics []).length = 24 ∧
    (demRow [] (1, Sex.male, AgeBand.child)).nPassengers = 0 ∧
    (demRow [] (1, Sex.male, AgeBand.child)).nSurvivors = 0 := by
  have h := c1_cross_product []
  have hmem : demRow [] (1, Sex.male, AgeBand.child) ∈ survival_demographics [] :=
    List.mem_map_of_mem _ (by decide)
  have h2 := h.2.2 _ hmem (by intro p hp; simp at hp)
  exact ⟨h.1, h2.1, h2.2⟩

/-- C2 as stated is false on the code: the claim says an age of exactly `0`
belongs to the `Child` band (`0 ≤ a ≤ 12`), but `pd.cut` with bins
`[0, 12, 19, 59, inf]` uses left-open intervals, so age `0` falls in no bin
and the record gets no age band. -/
theorem c2_age_zero_counterexample :
    ¬ (((0 : ℚ) ≤ 0 ∧ (0 : ℚ) ≤ 12) ↔ ageBand 0 = some AgeBand.child) := by
  decide

/-- C2 (amended): for a present age `a`, the band is `Child` iff
`0 < a ≤ 12`, `Teen` iff `12 < a ≤ 19`, `Adult` iff `19 < a ≤ 59`, `Senior`
iff `a > 59`; a record with no age band — its age missing, or present but in
no bin (such as exactly `0`) — contributes to no bucket of the demographics
aggregate. -/
theorem c2_age_bands (a : ℚ) :
    (ageBand a = some AgeBand.child ↔ 0 < a ∧ a ≤ 12) ∧
    (ageBand a = some AgeBand.teen ↔ 12 < a ∧ a ≤ 19) ∧
    (ageBand a = some AgeBand.adult ↔ 19 < a ∧ a ≤ 59) ∧
    (ageBand a = some AgeBand.senior ↔ 59 < a) ∧
    (∀ (p : Passenger) (ps : List Passenger),
      (∀ b : ℚ, p.age = some b → ageBand b = none) →
        demKey p = none ∧
          survival_demographics (p :: ps) = survival_demographics ps) := by
  refine ⟨?_, ?_, ?_, ?_, ?_⟩
  · rw [ageBand]
    split_ifs with h1 h2 h3 h4
    · exact iff_of_true rfl h1
    · exact iff_of_false (by simp) h1
    · exact iff_of_false (by simp) h1
    · exact iff_of_false (by simp) h1
    · exact iff_of_false (by simp) h1
  · rw [ageBand]
    split_ifs with h1 h2 h3 h4
    · exact iff_of_false (by simp) (fun hc => by linarith [h1.2, hc.1])
    · exact iff_of_true rfl h2
    · exact iff_of_false (by simp) h2
    · exact iff_of_false (by simp) h2
    · exact iff_of_false (by simp) h2
  · rw [ageBand]
    split_ifs with h1 h2 h3 h4
    · exact iff_of_false (by simp) (fun hc => by linarith [h1.2, hc.1])
    · exact iff_of_false (by simp) (fun hc => by linarith [h2.2, hc.1])
    · exact iff_of_true rfl h3
    · exact iff_of_false (by simp) h3
    · exact iff_of_false (by simp) h3
  · rw [ageBand]
    split_ifs with h1 h2 h3 h4
    · exact iff_of_false (by simp) (fun hc => by linarith [h1.2])
    · exact iff_of_false (by simp) (fun hc => by linarith [h2.2])
    · exact iff_of_false (by simp) (fun hc => by linarith [h3.2])
    · exact iff_of_true rfl h4
    · exact iff_of_false (by simp) h4
  · intro p ps hage
    have hkey : demKey p = none := by
      rcases ha : p.age with _ | b
      · rw [demKey]
        rcases hc : classOf p.pclass with _ | c <;>
          rcases hs : sexOf p.sex with _ | s <;> simp [ha]
      · have hb := hage b ha
        rw [demKey]
        rcases hc : classOf p.pclass with _ | c <;>
          rcases hs : sexOf p.sex with _ | s <;> simp [ha, hb]
    exact ⟨hkey, survival_demographics_cons_of_none ps hkey⟩

/-- Witness for C2 (amended) at age `5`, at a concrete record with a missing
age, and at a concrete record with present age exactly `0`. -/
theorem c2_age_bands_witness :
    (ageBand 5 = some AgeBand.child ↔ 0 < (5 : ℚ) ∧ (5 : ℚ) ≤ 12) ∧
    (demKey pNoAge = none ∧
      survival_demographics [pNoAge] = survival_demographics []) ∧
    (demKey pAgeZero = none ∧
      survival_demographics [pAgeZero] = survival_demographics []) :=
  ⟨(c2_age_bands 5).1,
    (c2_age_bands 5).2.2.2.2 pNoAge [] (fun b h => nomatch h),
    (c2_age_bands 5).2.2.2.2 pAgeZero [] (fun b h => by
      injection h with h2
      rw [← h2]
      decide)⟩

/-- C3: every output row's `survival_rate` is
`round(survivor_count / passenger_count, 2)` when `passenger_count > 0` and
`0` when `passenger_count = 0`; the value is always defined. -/
theorem c3_survival_rate (ps : List Passenger) (r : DemRow)
    (hr : r ∈ survival_demographics ps) :
    (0 < r.nPassengers →
      r.rate = round2 ((r.nSurvivors : ℚ) / (r.nPassengers : ℚ))) ∧
    (r.nPassengers = 0 → r.rate = 0) := by
  rw [survival_demographics, List.mem_map] at hr
  obtain ⟨k, hk, rfl⟩ := hr
  constructor
  · intro hpos
    simp only [demRow] at hpos ⊢
    rw [if_pos hpos]
  · intro hzero
    simp only [demRow] at hzero ⊢
    rw [if_neg (by omega)]

/-- Witness for C3: with one surviving first-class girl on board, the
`(1, female, Child)` bucket's rate follows the rounding formula, and the
empty `(1, male, Child)` bucket's rate is `0`. -/
theorem c3_survival_rate_witness :
    (demRow [pGirl] (1, Sex.female, AgeBand.child)).rate =
      round2 (((demRow [pGirl] (1, Sex.female, AgeBand.child)).nSurvivors : ℚ) /
        ((demRow [pGirl] (1, Sex.female, AgeBand.child)).nPassengers : ℚ)) ∧
    (demRow [pGirl] (1, Sex.male, AgeBand.child)).rate = 0 := by
  have h1 := c3_survival_rate [pGirl] (demRow [pGirl] (1, Sex.female, AgeBand.child))
    (List.mem_map_of_mem _ (by decide))
  have h2 := c3_survival_rate [pGirl] (demRow [pGirl] (1, Sex.male, AgeBand.child))
    (List.mem_map_of_mem _ (by decide))
  exact ⟨h1.1 (by decide), h2.2 (by decide)⟩

/-- C4: the rows of `survival_demographics` are in strictly ascending
`(class, sex, age-band)` order, with classes ordered `1 < 2 < 3`, sex in its
category order and bands `Child < Teen < Adult < Senior`. -/
theorem c4_output_ordered (ps : List Passenger) :
    ((survival_demographics ps).map rowKey).Pairwise keyLT := by
  rw [map_rowKey]
  decide

/-- C5: a record whose sex value does not normalize (lower-case, strip) to
`male` or `female` has no demographic key and leaves every bucket of the
aggregate unchanged. -/
theorem c5_bad_sex_excluded (p : Passenger) (ps : List Passenger)
    (h1 : normStr p.sex ≠ "male") (h2 : normStr p.sex ≠ "female") :
    demKey p = none ∧
    survival_demographics (p :: ps) = survival_demographics ps := by
  have hsex : sexOf p.sex = none := by rw [sexOf, if_neg h1, if_neg h2]
  have hkey : demKey p = none := by
    rw [demKey]
    rcases hc : classOf p.pclass with _ | c <;> simp [hsex]
  exact ⟨hkey, survival_demographics_cons_of_none ps hkey⟩

/-- Witness for C5 at a concrete record with sex `" UNKNOWN "`. -/
theorem c5_bad_sex_excluded_witness :
    demKey pBadSex = none ∧
    survival_demographics [pBadSex] = survival_demographics [] :=
  c5_bad_sex_excluded pBadSex [] (by decide) (by decide)

theorem mem_famKeys {ps : List Passenger} {k : Nat × Int} (hk : k ∈ famKeys ps) :
    ∃ p ∈ ps, famKey p = k := by
  rw [famKeys, List.mem_insertionSort, List.mem_dedup] at hk
  exact List.mem_map.mp hk

theorem foldl_min_le_init : ∀ (l : List ℚ) (a : ℚ), l.foldl min a ≤ a
  | [], a => le_refl a
  | x :: xs, a => le_trans (foldl_min_le_init xs (min a x)) (min_le_left a x)

theorem init_le_foldl_max : ∀ (l : List ℚ) (a : ℚ), a ≤ l.foldl max a
  | [], a => le_refl a
  | x :: xs, a => le_trans (le_max_left a x) (init_le_foldl_max xs (max a x))

theorem mul_foldl_min_le_sum (l : List ℚ) :
    ∀ a : ℚ, ((l.length : ℚ) + 1) * l.foldl min a ≤ a + l.sum := by
  induction l with
  | nil => intro a; simp
  | cons x xs ih =>
    intro a
    have h1 := ih (min a x)
    have hm := foldl_min_le_init xs (min a x)
    have h2 : min a x + max a x = a + x := min_add_max a x
    have h3 : xs.foldl min (min a x) ≤ max a x :=
      le_trans hm (le_trans (min_le_left a x) (le_max_left a x))
    simp only [List.foldl_cons, List.length_cons, List.sum_cons]
    push_cast
    have hexp : ((xs.length : ℚ) + 1 + 1) * xs.foldl min (min a x) =
        ((xs.length : ℚ) + 1) * xs.foldl min (min a x) + xs.foldl min (min a x) := by
      ring
    linarith [h1, h2, h3, hexp]

theorem sum_le_mul_foldl_max (l : List ℚ) :
    ∀ a : ℚ, a + l.sum ≤ ((l.length : ℚ) + 1) * l.foldl max a := by
  induction l with
  | nil => intro a; simp
  | cons x xs ih =>
    intro a
    have h1 := ih (max a x)
    have hm := init_le_foldl_max xs (max a x)
    have h2 : min a x + max a x = a + x := min_add_max a x
    have h3 : min a x ≤ xs.foldl max (max a x) :=
      le_trans (le_trans (min_le_left a x) (le_max_left a x)) hm
    simp only [List.foldl_cons, List.length_cons, List.sum_cons]
    push_cast
    have hexp : ((xs.length : ℚ) + 1 + 1) * xs.foldl max (max a x) =
        ((xs.length : ℚ) + 1) * xs.foldl max (max a x) + xs.foldl max (max a x) := by
      ring
    linarith [h1, h2, h3, hexp]

/-- C6: `family_size` is `SibSp + Parch + 1`, and every `family_groups`
output row has `family_size ≥ 1`. -/
theorem c6_family_size (p : Passenger) :
    familySize p = p.sibSp + p.parch + 1 ∧
    ∀ (ps : List Passenger) (r : FamRow), r ∈ family_groups ps →
      1 ≤ r.familySize := by
  refine ⟨rfl, ?_⟩
  intro ps r hr
  rw [family_groups, List.mem_map] at hr
  obtain ⟨k, hk, rfl⟩ := hr
  obtain ⟨q, _, hkey⟩ := mem_famKeys hk
  have hfield : (famRow ps k).familySize = k.1 := rfl
  rw [hfield, ← hkey]
  simp [famKey, familySize]

/-- Witness for C6: `SibSp = 1`, `Parch = 2` gives `family_size = 4`, and
the resulting output row has `family_size ≥ 1`. -/
theorem c6_family_size_witness :
    familySize pFamily = 4 ∧ 1 ≤ (famRow [pFamily] (4, 1)).familySize := by
  have h := c6_family_size pFamily
  have hmem : famRow [pFamily] (4, 1) ∈ family_groups [pFamily] :=
    List.mem_map_of_mem _ (by decide)
  refine ⟨?_, h.2 [pFamily] _ hmem⟩
  rw [h.1]
  rfl

/-- C7: in every `family_groups` output row the average fare lies between
the min fare and the max fare, inclusive. -/
theorem c7_avg_fare_between (ps : List Passenger) (r : FamRow)
    (hr : r ∈ family_groups ps) :
    r.minFare ≤ r.avgFare ∧ r.avgFare ≤ r.maxFare := by
  rw [family_groups, List.mem_map] at hr
  obtain ⟨k, hk, rfl⟩ := hr
  obtain ⟨p, hp, hkey⟩ := mem_famKeys hk
  have hpg : p ∈ famGroup ps k := by
    rw [famGroup, List.mem_filter]
    exact ⟨hp, by simp [hkey]⟩
  rcases hf : (famGroup ps k).map Passenger.fare with _ | ⟨x, xs⟩
  · exact absurd (hf ▸ List.mem_map_of_mem Passenger.fare hpg) (List.not_mem_nil _)
  · have hlen : (0 : ℚ) < ((x :: xs).length : ℚ) := by
      simp only [List.length_cons]
      push_cast
      positivity
    constructor
    · have hfield : (famRow ps k).minFare = xs.foldl min x := by
        simp [famRow, hf]
      have hfield2 : (famRow ps k).avgFare =
          ((x :: xs).sum : ℚ) / (((x :: xs).length : ℚ)) := by
        simp [famRow, hf]
      rw [hfield, hfield2, le_div_iff₀ hlen]
      simp only [List.length_cons, List.sum_cons]
      push_cast
      linarith [mul_foldl_min_le_sum xs x]
    · have hfield : (famRow ps k).maxFare = xs.foldl max x := by
        simp [famRow, hf]
      have hfield2 : (famRow ps k).avgFare =
          ((x :: xs).sum : ℚ) / (((x :: xs).length : ℚ)) := by
        simp [famRow, hf]
      rw [hfield, hfield2, div_le_iff₀ hlen]
      simp only [List.length_cons, List.sum_cons]
      push_cast
      linarith [sum_le_mul_foldl_max xs x]

/-- Witness for C7 at a single concrete record. -/
theorem c7_avg_fare_between_witness :
    (famRow [pFamily] (4, 1)).minFare ≤ (famRow [pFamily] (4, 1)).avgFare ∧
    (famRow [pFamily] (4, 1)).avgFare ≤ (famRow [pFamily] (4, 1)).maxFare :=
  c7_avg_fare_between [pFamily] _ (List.mem_map_of_mem _ (by decide))

theorem filter_insertionSort_countGE (l : List (String × Nat)) (n : Nat) :
    (List.insertionSort countGE l).filter (fun e => e.2 == n) =
      l.filter (fun e => e.2 == n) := by
  have hpw : (l.filter (fun e => e.2 == n)).Pairwise countGE := by
    apply List.pairwise_of_forall_mem_list
    intro a ha b hb
    have ha2 := (List.mem_filter.mp ha).2
    have hb2 := (List.mem_filter.mp hb).2
    rw [beq_iff_eq] at ha2 hb2
    rw [countGE, ha2, hb2]
  have hsub : List.Sublist (l.filter (fun e => e.2 == n)) (List.insertionSort countGE l) :=
    List.sublist_insertionSort hpw (List.filter_sublist l)
  have hidem : (l.filter (fun e => e.2 == n)).filter (fun e => e.2 == n) =
      l.filter (fun e => e.2 == n) :=
    List.filter_eq_self.mpr (fun a ha => (List.mem_filter.mp ha).2)
  have hsub2 : List.Sublist (l.filter (fun e => e.2 == n))
      ((List.insertionSort countGE l).filter (fun e => e.2 == n)) := by
    have h := hsub.filter (fun e => e.2 == n)
    rwa [hidem] at h
  have hlen : (l.filter (fun e => e.2 == n)).length =
      ((List.insertionSort countGE l).filter (fun e => e.2 == n)).length :=
    (((List.perm_insertionSort countGE l).filter _).length_eq).symm
  exact (hsub2.eq_of_length hlen).symm

/-- C8: `last_names` output counts are non-increasing, and within each tie
class of equal counts the entries stay in the counting order, whose keys are
the surnames in first-occurrence order. -/
theorem c8_sorted_ties_stable (ps : List Passenger) :
    (last_names ps).Pairwise countGE ∧
    (∀ n : Nat, (last_names ps).filter (fun e => e.2 == n) =
      (countsInOrder (ps.map (fun p => lastName p.name))).filter (fun e => e.2 == n)) ∧
    (countsInOrder (ps.map (fun p => lastName p.name))).map Prod.fst =
      firstOcc (ps.map (fun p => lastName p.name)) := by
  refine ⟨List.sorted_insertionSort countGE _, fun n => filter_insertionSort_countGE _ n, ?_⟩
  rw [countsInOrder, List.map_map]
  have h : ∀ s ∈ firstOcc (ps.map (fun p => lastName p.name)),
      (Prod.fst ∘ fun t => (t, countOcc t (ps.map (fun p => lastName p.name)))) s = id s :=
    fun s _ => rfl
  rw [List.map_congr_left h, List.map_id]

theorem mem_firstOcc (xs : List String) (s : String) : s ∈ firstOcc xs ↔ s ∈ xs := by
  induction xs with
  | nil => simp [firstOcc]
  | cons x t ih => by_cases hsx : s = x <;> simp [firstOcc, List.mem_filter, ih, hsx]

theorem nodup_firstOcc (xs : List String) : (firstOcc xs).Nodup := by
  induction xs with
  | nil => simp [firstOcc]
  | cons x t ih =>
    rw [firstOcc, List.nodup_cons]
    refine ⟨?_, List.Nodup.filter _ ih⟩
    intro hmem
    have h := (List.mem_filter.mp hmem).2
    simp at h

theorem countOcc_cons (s x : String) (xs : List String) :
    countOcc s (x :: xs) = countOcc s xs + (if x == s then 1 else 0) := by
  rw [countOcc, countOcc, List.filter_cons]
  by_cases h : (x == s) = true <;> simp [h]

theorem countOcc_eq_zero {s : String} {xs : List String} (h : s ∉ xs) :
    countOcc s xs = 0 := by
  rw [countOcc]
  have hnil : xs.filter (fun y => y == s) = [] := by
    rw [List.filter_eq_nil_iff]
    intro a ha hbeq
    exact h (by rwa [eq_of_beq hbeq] at ha)
  rw [hnil]
  rfl

theorem sum_map_split (f : String → Nat) {l : List String} {x : String}
    (hnd : l.Nodup) (hx : x ∈ l) :
    (l.map f).sum = f x + ((l.filter (fun y => y != x)).map f).sum := by
  induction l with
  | nil => cases hx
  | cons a t ih =>
    rw [List.nodup_cons] at hnd
    rcases List.mem_cons.mp hx with rfl | hxt
    · have hfilt : t.filter (fun y => y != x) = t := by
        rw [List.filter_eq_self]
        intro b hb
        simp only [bne_iff_ne]
        exact fun hbx => hnd.1 (hbx ▸ hb)
      rw [List.filter_cons]
      simp [hfilt]
    · have hax : (a != x) = true := by
        simp only [bne_iff_ne]
        intro hh
        exact hnd.1 (hh ▸ hxt)
      rw [List.filter_cons, if_pos hax]
      simp only [List.map_cons, List.sum_cons]
      rw [ih hnd.2 hxt]
      omega

theorem sum_counts (xs : List String) :
    ((firstOcc xs).map (fun s => countOcc s xs)).sum = xs.length := by
  induction xs with
  | nil => rfl
  | cons x t ih =>
    rw [firstOcc]
    simp only [List.map_cons, List.sum_cons, List.length_cons]
    have hhead : countOcc x (x :: t) = countOcc x t + 1 := by
      rw [countOcc_cons]
      simp
    have htail : ((firstOcc t).filter (fun y => y != x)).map (fun s => countOcc s (x :: t)) =
        ((firstOcc t).filter (fun y => y != x)).map (fun s => countOcc s t) := by
      apply List.map_congr_left
      intro s hs
      have hne := (List.mem_filter.mp hs).2
      rw [bne_iff_ne] at hne
      rw [countOcc_cons, if_neg (by simpa using fun hh => hne hh.symm)]
      omega
    rw [hhead, htail]
    by_cases hx : x ∈ t
    · have hsplit : ((firstOcc t).map (fun s => countOcc s t)).sum =
          countOcc x t +
            (((firstOcc t).filter (fun y => y != x)).map (fun s => countOcc s t)).sum :=
        sum_map_split (fun s => countOcc s t) (nodup_firstOcc t)
          ((mem_firstOcc t x).mpr hx)
      omega
    · have hfilt : (firstOcc t).filter (fun y => y != x) = firstOcc t := by
        rw [List.filter_eq_self]
        intro b hb
        simp only [bne_iff_ne]
        exact fun hbx => hx (hbx ▸ (mem_firstOcc t b).mp hb)
      have hzero : countOcc x t = 0 := countOcc_eq_zero hx
      rw [hfilt]
      omega

/-- C9: the counts in the `last_names` output sum to the number of input
records. -/
theorem c9_counts_sum (ps : List Passenger) :
    ((last_names ps).map (fun e => e.2)).sum = ps.length := by
  rw [last_names]
  have hperm := (List.perm_insertionSort countGE
    (countsInOrder (ps.map (fun p => lastName p.name)))).map (fun e : String × Nat => e.2)
  rw [hperm.sum_eq, countsInOrder, List.map_map]
  have h : ((fun e : String × Nat => e.2) ∘
      fun s => (s, countOcc s (ps.map (fun p => lastName p.name)))) =
      fun s => countOcc s (ps.map (fun p => lastName p.name)) := rfl
  rw [h, sum_counts, List.length_map]

/-- C10: a record whose name contains no comma keeps its whole name, stripped
of surrounding whitespace, as its surname, and is still counted. -/
theorem c10_no_comma (s : String) (h : ∀ c ∈ s.data, c ≠ ',') :
    lastName s = String.mk (trimChars s.data) ∧
    ∀ p : Passenger, p.name = s →
      last_names [p] = [(String.mk (trimChars s.data), 1)] := by
  have htake : s.data.takeWhile (fun c => c != ',') = s.data := by
    rw [List.takeWhile_eq_self_iff]
    intro c hc
    simp [h c hc]
  have hname : lastName s = String.mk (trimChars s.data) := by
    rw [lastName, htake]
  refine ⟨hname, ?_⟩
  intro p hp
  rw [last_names]
  have hmap : [p].map (fun q => lastName q.name) = [lastName s] := by simp [hp]
  rw [hmap]
  have hc1 : countsInOrder [lastName s] = [(lastName s, 1)] := by
    rw [countsInOrder]
    simp [firstOcc, countOcc]
  rw [hc1, hname]
  rfl

/-- Witness for C10 at the comma-free name `" Smith "`. -/
theorem c10_no_comma_witness :
    lastName " Smith " = "Smith" ∧ last_names [pNoComma] = [("Smith", 1)] := by
  have h := c10_no_comma " Smith " (by decide)
  constructor
  · rw [h.1]
    decide
  · rw [h.2 pNoComma rfl]
    decide

end Titanic
